import Mathlib

/-!
Verification of the bigbed-jaccard sketching and retrieval engine.

Shallow embedding of the Rust sources (src/hash.rs, src/bed.rs,
src/bottom_k.rs, src/oph.rs, src/lsh.rs) as executable Lean definitions.
Machine integers (u32, u64) are modelled as `Nat` with explicit `% 2^32` /
`% 2^64` wherever the Rust arithmetic can wrap; fallible Rust code is
modelled with `Option` / `Except`, and a Rust panic (unwrap on an error,
index out of bounds, `chunks(0)`, a loop that never exits) is kept distinct
from an error value returned to the caller.
-/

namespace BigbedJaccard

/-! ### src/hash.rs -/

/-- Hash coefficient `A` from src/hash.rs. -/
def hashA : Nat := 11927359292700924260

/-- Hash coefficient `B` from src/hash.rs. -/
def hashB : Nat := 6512515406574399413

/-- `hash` from src/hash.rs: `(((A.overflowing_mul(value as u64).0)
.overflowing_add(B).0) >> 32) as u32`.  `overflowing_mul` / `overflowing_add`
are u64 wrapping arithmetic, i.e. `% 2^64`; `>> 32` on a u64 is division by
`2^32`, and the final `as u32` is the identity on the 32-bit quotient. -/
def hash (value : Nat) : Nat :=
  (hashA * value % 2 ^ 64 + hashB) % 2 ^ 64 / 2 ^ 32

/-! ### src/bed.rs -/

/-- `BedEntry` (from the bigtools crate) as consumed by this repository:
half-open interval `[start, end)` of u32 genomic positions.  The `rest`
payload is opaque and never inspected by the flattening or sketching code,
so it is omitted from the embedding; `end` is renamed `stop` because `end`
is a Lean keyword. -/
structure BedEntry where
  start : Nat
  stop : Nat
  deriving DecidableEq, Repr

/-- The positions visited by the Rust loop `for i in s..e`:
`[s, s+1, ..., e-1]`, empty when `e ≤ s`. -/
def emitRange (s e : Nat) : List Nat := List.range' s (e - s)

/-- The loop of `intervals_to_vec` (src/bed.rs lines 156–172) over the
intervals after the first, carrying the mutable `virtual_end`: an interval
with `end ≤ virtual_end` is skipped; one with `start ≥ virtual_end` is
emitted whole; an overlapping one contributes only its tail
`[virtual_end, end)`; in the latter two cases `virtual_end` becomes
`end`. -/
def flattenRest (virtualEnd : Nat) : List BedEntry → List Nat
  | [] => []
  | d :: rest =>
    if d.stop ≤ virtualEnd then flattenRest virtualEnd rest
    else if d.start ≥ virtualEnd then
      emitRange d.start d.stop ++ flattenRest d.stop rest
    else
      emitRange virtualEnd d.stop ++ flattenRest d.stop rest

/-- `intervals_to_vec` from src/bed.rs.  The Rust function reads `data[0]`
unconditionally, which panics (index out of bounds) on an empty slice; the
panic is modelled as `none`. -/
def intervals_to_vec : List BedEntry → Option (List Nat)
  | [] => none
  | d :: rest => some (emitRange d.start d.stop ++ flattenRest d.stop rest)

/-- `offset_data` from src/bed.rs: add `offset` to every interval's
endpoints. -/
def offset_data (data : List BedEntry) (offset : Nat) : List BedEntry :=
  data.map fun e => ⟨e.start + offset, e.stop + offset⟩

/-! ### src/oph.rs: OnePermutationHasher -/

/-- The `offset` precomputed by `OnePermutationHasher::new`:
`std::u32::MAX / (num_bins as u32) + 1`, i.e. `⌊(2^32 − 1)/num_bins⌋ + 1`.
(Rust u32 division by zero panics, so `new` is only callable with
`num_bins ≥ 1`.) -/
def mkOffset (numBins : Nat) : Nat := (2 ^ 32 - 1) / numBins + 1

/-- One iteration of the position loops in `OnePermutationHasher::sketch`
(src/oph.rs lines 156–167 and 182–193): hash position `i`, pick bin
`hash(i) % num_bins`, and keep the minimum hash seen in that bin.
`output[bin]` is always in bounds in the source because
`bin < num_bins = output.len()`; the out-of-bounds branch of `output[bin]?`
below (reachable only with `num_bins = 0`, which `new` already rules out)
leaves the sketch unchanged. -/
def sketchInsert (numBins : Nat) (output : List (Option Nat)) (i : Nat) :
    List (Option Nat) :=
  let currentHash := hash i
  let bin := currentHash % numBins
  match output[bin]? with
  | some (some val) =>
    if currentHash < val then output.set bin (some currentHash) else output
  | some none => output.set bin (some currentHash)
  | none => output

/-- Fold `sketchInsert` over a block of consecutive positions. -/
def sketchFold (numBins : Nat) (output : List (Option Nat))
    (positions : List Nat) : List (Option Nat) :=
  positions.foldl (sketchInsert numBins) output

/-- The loop of `OnePermutationHasher::sketch` over the intervals after the
first (src/oph.rs lines 169–194).  It duplicates the `virtual_end`
flattening logic of `intervals_to_vec` and hashes each emitted position
into the sketch. -/
def sketchRest (numBins virtualEnd : Nat) (output : List (Option Nat)) :
    List BedEntry → List (Option Nat)
  | [] => output
  | d :: rest =>
    if d.stop ≤ virtualEnd then sketchRest numBins virtualEnd output rest
    else if d.start ≥ virtualEnd then
      sketchRest numBins d.stop
        (sketchFold numBins output (emitRange d.start d.stop)) rest
    else
      sketchRest numBins d.stop
        (sketchFold numBins output (emitRange virtualEnd d.stop)) rest

/-- `OnePermutationHasher::sketch` (src/oph.rs lines 149–196).  The Rust
function destructures `data[0]` unconditionally, which panics (index out of
bounds) on an empty slice; the panic is modelled as `none`. -/
def sketch (numBins : Nat) : List BedEntry → Option (List (Option Nat))
  | [] => none
  | d :: rest =>
    some (sketchRest numBins d.stop
      (sketchFold numBins (List.replicate numBins none)
        (emitRange d.start d.stop)) rest)

/-- The `find` over `sketch[i+1..].chain(sketch[0..i]).enumerate()` in
`densify`: index and value of the first non-empty slot of a list. -/
def findFirstSome : List (Option Nat) → Option (Nat × Nat)
  | [] => none
  | none :: rest => (findFirstSome rest).map fun p => (p.1 + 1, p.2)
  | some v :: _ => some (0, v)

/-- The circular search order used by `densify` for bin `i`:
`sketch[i+1..].chain(sketch[0..i])` — the slots after `i` followed by the
slots before `i`. -/
def searchChain (sk : List (Option Nat)) (i : Nat) : List (Option Nat) :=
  sk.drop (i + 1) ++ sk.take i

/-- The body of the per-bin match in `OnePermutationHasher::densify`
(src/oph.rs lines 87–112): a non-empty bin keeps its value; an empty bin
searches the chain forward when its indicator is true and in reverse when
it is false, and is filled with `value + (index + 1) * offset` in wrapping
u32 arithmetic.  `indicators[i]` is always in bounds in the source
(`indicators.len() = num_bins`); the embedding uses `getD i false` for
totality. `none` models the `return Err(EmptySketchError)` arm. -/
def densifyBin (offset : Nat) (indicators : List Bool)
    (sk : List (Option Nat)) (i : Nat) (v : Option Nat) : Option Nat :=
  match v with
  | some val => some val
  | none =>
    let chain :=
      if indicators.getD i false then searchChain sk i
      else (searchChain sk i).reverse
    match findFirstSome chain with
    | some p => some ((p.2 + (p.1 + 1) * offset) % 2 ^ 32)
    | none => none

/-- The `for (i, value) in sketch.iter().enumerate()` loop of `densify`,
accumulating the dense sketch; the first empty bin whose search fails
aborts the whole call (the Rust `return Err(EmptySketchError)`). -/
def densifyAux (offset : Nat) (indicators : List Bool)
    (sk : List (Option Nat)) : Nat → List (Option Nat) → Option (List Nat)
  | _, [] => some []
  | i, v :: rest =>
    match densifyBin offset indicators sk i v with
    | none => none
    | some d => (densifyAux offset indicators sk (i + 1) rest).map (d :: ·)

/-- `OnePermutationHasher::densify` (src/oph.rs lines 82–115), with the
hasher's `offset` and lazily generated `indicators` passed explicitly.
The indicator vector is produced by the rand crate's `StdRng` seeded with
`OPH_SEED` (one fair coin flip per bin); that generator is an external
dependency, so the indicators are a parameter of the embedding. -/
def densify (offset : Nat) (indicators : List Bool)
    (sk : List (Option Nat)) : Option (List Nat) :=
  densifyAux offset indicators sk 0 sk

/-- `OnePermutationHasher::dense_sketch` (src/oph.rs lines 198–201):
`densify(sketch(data))`. -/
def dense_sketch (numBins offset : Nat) (indicators : List Bool)
    (data : List BedEntry) : Option (List Nat) :=
  (sketch numBins data).bind (densify offset indicators)

/-- One probe of `densify_optimal`:
`hash(i as u32 + attempts) % self.num_bins as u32`.  The addition
`i as u32 + attempts` is u32 arithmetic, hence the `% 2^32`. -/
def probeBin (numBins i attempts : Nat) : Nat :=
  hash ((i + attempts) % 2 ^ 32) % numBins

/-- The `while sketch[next_bin as usize].is_none()` loop of
`densify_optimal` (src/oph.rs lines 127–132), with explicit fuel: `none`
means the loop has not found a non-empty bin within `fuel` probes.  The
Rust loop has no bound at all; the source reads `sketch[next_bin]`, in
bounds because `next_bin < num_bins = sketch.len()` (the out-of-bounds
default of `getD` keeps probing, like a `None` slot). -/
def probeLoop (sk : List (Option Nat)) (numBins i : Nat) :
    Nat → Nat → Option Nat
  | _, 0 => none
  | attempts, fuel + 1 =>
    match sk.getD (probeBin numBins i attempts) none with
    | some v => some v
    | none => probeLoop sk numBins i (attempts + 1) fuel

/-- The bin loop of `densify_optimal` (src/oph.rs lines 123–140): a
non-empty bin keeps its value; an empty bin takes the value found by the
probe loop started at `attempts = 1`.  After the `while` loop exits,
`sketch[next_bin]` is necessarily `Some`, so the source's
`_ => return Err(EmptySketchError)` arm is unreachable: the only failure
mode is the loop itself never exiting (`none` here means the call never
returns within `fuel` probes). -/
def densifyOptimalAux (numBins fuel : Nat) (sk : List (Option Nat)) :
    Nat → List (Option Nat) → Option (List Nat)
  | _, [] => some []
  | i, v :: rest =>
    match v with
    | some val => (densifyOptimalAux numBins fuel sk (i + 1) rest).map (val :: ·)
    | none =>
      match probeLoop sk numBins i 1 fuel with
      | some val => (densifyOptimalAux numBins fuel sk (i + 1) rest).map (val :: ·)
      | none => none

/-- `OnePermutationHasher::densify_optimal` (src/oph.rs lines 121–142),
with explicit fuel bounding the number of probes of each empty bin:
`none` means the call has not terminated within that bound. -/
def densify_optimal (numBins fuel : Nat) (sk : List (Option Nat)) :
    Option (List Nat) :=
  densifyOptimalAux numBins fuel sk 0 sk

/-- The count of equal-valued positions in `OnePermutationHasher::jaccard`
(src/oph.rs lines 215–220): iterate over `zip` of the two dense sketches
and count positions where the values agree. -/
def countShared (s1 s2 : List Nat) : Nat :=
  (s1.zip s2).countP fun p => decide (p.1 = p.2)

/-- `OnePermutationHasher::jaccard` (src/oph.rs lines 207–222): error
(`SketchLengthMismatchError`, modelled as `none`) when the lengths differ,
else `shared / total`.  The Rust result is an `f64`; the embedding returns
the exact rational value (f64 rounding of the quotient is outside the
model). -/
def oph_jaccard (s1 s2 : List Nat) : Option ℚ :=
  let total := s1.length
  if s2.length ≠ total then none
  else some ((countShared s1 s2 : ℚ) / (total : ℚ))

/-! ### src/bottom_k.rs -/

/-- `HashWithValue` from src/bottom_k.rs: a hashed coordinate paired with
the coordinate itself. -/
structure HashWithValue where
  hash : Nat
  value : Nat
  deriving DecidableEq, Repr

/-- The derived Rust `Ord` on `HashWithValue` compares the fields in
declaration order: lexicographically by `(hash, value)`. -/
instance : LinearOrder HashWithValue :=
  LinearOrder.lift' (fun a => toLex (a.hash, a.value)) (by
    intro a b h
    cases a
    cases b
    simpa [Prod.ext_iff, HashWithValue.mk.injEq] using h)

/-- Rust `Vec::dedup`: remove consecutive repeated elements.  Applied to a
sorted list this removes all duplicates. -/
def dedupAdj {α : Type} [DecidableEq α] : List α → List α
  | [] => []
  | [a] => [a]
  | a :: b :: rest =>
    if a = b then dedupAdj (b :: rest) else a :: dedupAdj (b :: rest)

/-- `BoundedPriorityQueue` from src/bottom_k.rs.  The Rust `heap` is a
`BinaryHeap<Reverse<HashWithValue>>`; only its multiset of contents is ever
observable (iteration feeds a sort or a `HashSet`), so it is modelled as a
plain list of contents. -/
structure BoundedPriorityQueue where
  queue_size : Nat
  heap : List HashWithValue

/-- `BoundedPriorityQueue::merge` followed by the
`shrink_to_queue_size` it performs (src/bottom_k.rs lines 48–64): chain
both heaps' contents, sort (the derived `Ord`, ascending by
`(hash, value)`), `dedup` (which after sorting removes all duplicates),
rebuild a heap and pop the `queue_size` smallest elements into the result.
On the sorted duplicate-free contents, popping the `queue_size` smallest is
taking the length-`queue_size` prefix.  The merged queue keeps `self`'s
`queue_size`. -/
def bpqMerge (q other : BoundedPriorityQueue) : BoundedPriorityQueue :=
  let merged := dedupAdj (List.insertionSort (· ≤ ·) (q.heap ++ other.heap))
  ⟨q.queue_size, merged.take q.queue_size⟩

/-- `jaccard` from src/bottom_k.rs (lines 86–93): count the elements of the
merged-and-shrunk sketch that lie in both operands' retained member sets,
and divide by `sig_a.queue_size`.  The Rust code forms `HashSet`s and
counts `merged ∩ (A ∩ B)`; since the merged heap is duplicate-free, that
count is the length of the filtered merged list.  The Rust result is an
`f64`; the embedding returns the exact rational value. -/
def bkJaccard (sig_a sig_b : BoundedPriorityQueue) : ℚ :=
  let merged := (bpqMerge sig_a sig_b).heap
  let shared :=
    (merged.filter fun x =>
      decide (x ∈ sig_a.heap) && decide (x ∈ sig_b.heap)).length
  (shared : ℚ) / (sig_a.queue_size : ℚ)

/-- `compute_k_minhashes` from src/bottom_k.rs (lines 74–84): push
`(hash i, i)` for every datum into a queue of size `k` (pushes are
unconditional; the queue is only trimmed by `shrink_to_queue_size`). -/
def compute_k_minhashes (data : List Nat) (k : Nat) : BoundedPriorityQueue :=
  ⟨k, data.map fun i => ⟨hash i, i⟩⟩

/-! ### src/lsh.rs -/

/-- `IncorrectlyChunkedInputSketchError` from src/lsh.rs, carrying the
expected (`n_hashes * n_values`) and found sketch lengths that formatted
its message. -/
inductive LshError where
  | incorrectlyChunkedInput (expected found : Nat)
  deriving DecidableEq, Repr

/-- How an `Lsh` call can fail: `returned e` is the error value `Err(e)`
handed back to the caller; `panicked e` is the panic raised by calling
`.unwrap()` on `Err(e)`; `panickedChunkSizeZero` is the panic raised by
`slice::chunks(0)`. -/
inductive LshFailure where
  | returned (e : LshError)
  | panicked (e : LshError)
  | panickedChunkSizeZero
  deriving DecidableEq, Repr

/-- The `Lsh` index state from src/lsh.rs.  The `hashers`
`HashMap<usize, HashMap<Vec<K>, Vec<V>>>` always has key set
`{0, …, n_hashes−1}` (populated by `new`, never extended), so it is
modelled as a list of band tables indexed by position; each band's
`HashMap` is modelled as an association list with unique keys (map
iteration order is never observed by `insert`/`query`).  The
`Arc<Mutex<…>>` wrapper serializes whole calls and does not change their
sequential meaning. -/
structure Lsh (K V : Type) where
  hashers : List (List (List K × List V))
  n_hashes : Nat
  n_values : Nat
  sketches : List (V × List K)
  deriving DecidableEq, Repr

/-- `Lsh::new` (src/lsh.rs lines 51–62): one empty band table per band
index `0..n_hashes`, no stored sketches. -/
def lshNew (K V : Type) (n_hashes n_values : Nat) : Lsh K V :=
  ⟨List.replicate n_hashes [], n_hashes, n_values, []⟩

/-- The recursion of Rust `slice::chunks(k)`, made structural on a fuel
argument: every step consumes at least one element, so starting the fuel at
the list length (as `chunksOf` does) it is never exhausted and the
`fuel = 0` branch is dead code. -/
def chunksOfGo {α : Type} (k : Nat) : Nat → List α → List (List α)
  | _, [] => []
  | 0, _ :: _ => []
  | fuel + 1, a :: l => ((a :: l).take k) :: chunksOfGo k fuel (l.drop (k - 1))

/-- Rust `slice::chunks(k)`: split into contiguous chunks of length `k`
(the last may be shorter).  Rust panics when `k = 0`; the caller
(`chunk_sketch`) models that panic before ever chunking, so the `k = 0`
behavior of this function is dead code. -/
def chunksOf {α : Type} (k : Nat) (l : List α) : List (List α) :=
  chunksOfGo k l.length l

/-- `Lsh::chunk_sketch` (src/lsh.rs lines 64–83): return
`Err(IncorrectlyChunkedInputSketchError)` when the sketch length is not
`n_hashes * n_values`, else the list of `n_values`-sized chunks.  When
`n_values = 0` (and the length check passed, i.e. the sketch is empty) the
Rust `sketch.chunks(0)` panics. -/
def chunk_sketch {K V : Type} [DecidableEq K] (lsh : Lsh K V)
    (sk : List K) : Except LshFailure (List (List K)) :=
  let expected := lsh.n_hashes * lsh.n_values
  if sk.length ≠ expected then
    .error (.returned (.incorrectlyChunkedInput expected sk.length))
  else if lsh.n_values = 0 then .error .panickedChunkSizeZero
  else .ok (chunksOf lsh.n_values sk)

/-- Bucket lookup in one band table: the first binding whose key equals
`key` (keys are unique by construction). -/
def bucketGet {K V : Type} [DecidableEq K]
    (band : List (List K × List V)) (key : List K) : Option (List V) :=
  (band.find? fun p => decide (p.1 = key)).map (·.2)

/-- The per-band update of `Lsh::insert` (src/lsh.rs lines 100–112):
append `id` to the existing bucket for `key` (`get_mut` + `push`), or
insert a fresh singleton bucket when the key is absent — the standard
association-list rendering of the `HashMap` update. -/
def bucketInsert {K V : Type} [DecidableEq K]
    (band : List (List K × List V)) (key : List K) (id : V) :
    List (List K × List V) :=
  match band with
  | [] => [(key, [id])]
  | p :: rest =>
    if p.1 = key then (p.1, p.2 ++ [id]) :: rest
    else p :: bucketInsert rest key id

/-- The parallel loop of `Lsh::insert` over `chunked_sketch`: band `i`
gains `id` under key `chunks[i]`.  Each band is updated independently
under the mutex, so the parallel iteration is equivalent to this
sequential zip.  A chunk index beyond the band tables would produce the
"Data had more bins than expected" error, which `insert` collects into a
discarded `Vec` — i.e. silently ignores — so that case (unreachable
anyway, since the length check makes exactly `n_hashes` chunks) changes
nothing. -/
def updateBands {K V : Type} [DecidableEq K] :
    List (List (List K × List V)) → List (List K) → V →
      List (List (List K × List V))
  | bands, [], _ => bands
  | [], _ :: _, _ => []
  | b :: bands, c :: chunks, id => bucketInsert b c id :: updateBands bands chunks id

/-- Lookup in the `sketches` table of an `Lsh` (id → canonical sketch). -/
def lookupSketch {K V : Type} [DecidableEq V] (lsh : Lsh K V) (id : V) :
    Option (List K) :=
  (lsh.sketches.find? fun p => decide (p.1 = id)).map (·.2)

/-- `Lsh::insert` (src/lsh.rs lines 88–116): a no-op returning the index
unchanged when `id` is already stored; otherwise store the sketch under
`id` and add `id` to every band's bucket for that band's chunk.  The Rust
code calls `.unwrap()` on `chunk_sketch`, so a chunking error becomes a
panic, not a returned error.  (The source stores the sketch before
unwrapping; on the panic path the call aborts, so only the failure is
observable.) -/
def insert {K V : Type} [DecidableEq K] [DecidableEq V] (lsh : Lsh K V)
    (sk : List K) (id : V) : Except LshFailure (Lsh K V) :=
  if (lookupSketch lsh id).isSome then .ok lsh
  else
    match chunk_sketch lsh sk with
    | .error (.returned e) => .error (.panicked e)
    | .error f => .error f
    | .ok chunks =>
      .ok { lsh with
              sketches := lsh.sketches ++ [(id, sk)],
              hashers := updateBands lsh.hashers chunks id }

/-- The per-band lookups of `Lsh::query` flattened in band order
(src/lsh.rs lines 125–137): band `i` contributes its bucket for chunk `i`,
an absent bucket contributing nothing.  The source's
`map.get(&i).unwrap()` cannot fail because the length check yields exactly
`n_hashes` chunks and `new` populated every band index; the embedding's
short-cut on exhausted bands is that same unreachable case. -/
def collectHits {K V : Type} [DecidableEq K] :
    List (List (List K × List V)) → List (List K) → List V
  | _, [] => []
  | [], _ :: _ => []
  | b :: bands, c :: chunks => ((bucketGet b c).getD []) ++ collectHits bands chunks

/-- `Lsh::query` (src/lsh.rs lines 121–145): chunk the query (panicking
via `.unwrap()` on a wrong-length sketch), flatten the per-band bucket
hits, `sort` then `dedup` (full deduplication, since sorted), and return
`None` exactly when no bucket matched. -/
def query {K V : Type} [DecidableEq K] [LinearOrder V] (lsh : Lsh K V)
    (sk : List K) : Except LshFailure (Option (List V)) :=
  match chunk_sketch lsh sk with
  | .error (.returned e) => .error (.panicked e)
  | .error f => .error f
  | .ok chunks =>
    let results :=
      dedupAdj (List.insertionSort (· ≤ ·) (collectHits lsh.hashers chunks))
    .ok (if results.isEmpty then none else some results)

/-- Decidable equality of `Except`, used to evaluate concrete `Lsh`
fixtures. -/
instance exceptDecidableEq {ε α : Type} [DecidableEq ε] [DecidableEq α] :
    DecidableEq (Except ε α) := fun a b =>
  match a, b with
  | .error e1, .error e2 =>
    if h : e1 = e2 then isTrue (by rw [h])
    else isFalse (by intro hh; cases hh; exact h rfl)
  | .error _, .ok _ => isFalse (by intro h; cases h)
  | .ok _, .error _ => isFalse (by intro h; cases h)
  | .ok a1, .ok a2 =>
    if h : a1 = a2 then isTrue (by rw [h])
    else isFalse (by intro hh; cases hh; exact h rfl)

/-- The bucket hits the spec attributes to band `i` of a query: the ids
stored under key `[i·K, (i+1)·K)` of the query in band `i`'s table, an
absent band or bucket contributing nothing. -/
def bandHits {K V : Type} [DecidableEq K] (lsh : Lsh K V) (sk : List K)
    (i : Nat) : List V :=
  (bucketGet (lsh.hashers.getD i [])
    ((sk.drop (i * lsh.n_values)).take lsh.n_values)).getD []

/-! ## Supporting lemmas -/

theorem sketchInsert_length (nb : Nat) (out : List (Option Nat)) (i : Nat) :
    (sketchInsert nb out i).length = out.length := by
  unfold sketchInsert
  cases h : out[hash i % nb]? with
  | none => simp [h]
  | some v =>
    cases v with
    | none => simp [h]
    | some val => by_cases hlt : hash i < val <;> simp [h, hlt]

theorem sketchFold_length (nb : Nat) (out : List (Option Nat))
    (ps : List Nat) : (sketchFold nb out ps).length = out.length := by
  induction ps generalizing out with
  | nil => rfl
  | cons p ps ih =>
    rw [sketchFold, List.foldl_cons]
    rw [show List.foldl (sketchInsert nb) (sketchInsert nb out p) ps =
      sketchFold nb (sketchInsert nb out p) ps from rfl, ih,
      sketchInsert_length]

theorem sketchRest_length (nb ve : Nat) (out : List (Option Nat))
    (data : List BedEntry) : (sketchRest nb ve out data).length = out.length := by
  induction data generalizing ve out with
  | nil => rfl
  | cons d rest ih =>
    rw [sketchRest]
    by_cases h1 : d.stop ≤ ve
    · simp only [h1, if_true]
      exact ih ve out
    · by_cases h2 : d.start ≥ ve <;>
        simp only [h1, h2, if_true, if_false] <;>
        rw [ih, sketchFold_length]

theorem probeLoop_all_none (sk : List (Option Nat)) (nb i : Nat)
    (h : ∀ x ∈ sk, x = none) :
    ∀ a fuel, probeLoop sk nb i a fuel = none := by
  intro a fuel
  induction fuel generalizing a with
  | zero => rfl
  | succ fuel ih =>
    rw [probeLoop]
    have hd : sk.getD (probeBin nb i a) none = none := by
      rw [List.getD_eq_getElem?_getD]
      cases hx : sk[probeBin nb i a]? with
      | none => rfl
      | some x =>
        have := h x (List.getElem?_mem hx)
        simp [this]
    rw [hd]
    exact ih (a + 1)

theorem findFirstSome_eq_some_iff (l : List (Option Nat)) (idx v : Nat) :
    findFirstSome l = some (idx, v) ↔
      l[idx]? = some (some v) ∧ ∀ j, j < idx → l[j]? = some none := by
  induction l generalizing idx with
  | nil => simp [findFirstSome]
  | cons x rest ih =>
    cases x with
    | some w =>
      rw [findFirstSome]
      constructor
      · intro h
        simp only [Option.some.injEq, Prod.mk.injEq] at h
        obtain ⟨h0, hw⟩ := h
        subst h0
        subst hw
        exact ⟨by simp, fun j hj => absurd hj (Nat.not_lt_zero j)⟩
      · rintro ⟨h1, h2⟩
        cases idx with
        | zero =>
          simp only [List.getElem?_cons_zero, Option.some.injEq] at h1
          rw [h1]
        | succ k =>
          have := h2 0 (Nat.succ_pos k)
          simp at this
    | none =>
      rw [findFirstSome]
      cases idx with
      | zero =>
        constructor
        · intro h
          cases hf : findFirstSome rest with
          | none => rw [hf] at h; cases h
          | some p =>
            rw [hf] at h
            simp only [Option.map_some', Option.some.injEq, Prod.mk.injEq] at h
            exact absurd h.1 (Nat.succ_ne_zero p.1)
        · rintro ⟨h1, -⟩
          rw [List.getElem?_cons_zero] at h1
          simp at h1
      | succ k =>
        have hmap : (findFirstSome rest).map (fun p => (p.1 + 1, p.2)) =
            some (k + 1, v) ↔ findFirstSome rest = some (k, v) := by
          cases hf : findFirstSome rest with
          | none => simp
          | some p =>
            simp only [Option.map_some', Option.some.injEq, Prod.mk.injEq]
            constructor
            · rintro ⟨h1, h2⟩
              have hp : p.1 = k := by omega
              rw [← hp, ← h2]
            · intro h
              simp only [Option.some.injEq] at h
              subst h
              exact ⟨rfl, rfl⟩
        rw [hmap, ih k]
        constructor
        · rintro ⟨h1, h2⟩
          refine ⟨by simpa using h1, fun j hj => ?_⟩
          cases j with
          | zero => simp
          | succ j' => simpa using h2 j' (by omega)
        · rintro ⟨h1, h2⟩
          exact ⟨by simpa using h1, fun j hj => by simpa using h2 (j + 1) (by omega)⟩

theorem findFirstSome_eq_none_iff (l : List (Option Nat)) :
    findFirstSome l = none ↔ ∀ x ∈ l, x = none := by
  induction l with
  | nil => simp [findFirstSome]
  | cons x rest ih =>
    cases x with
    | some w => simp [findFirstSome]
    | none => simp [findFirstSome, Option.map_eq_none', ih]

theorem searchChain_length (sk : List (Option Nat)) (i : Nat)
    (hi : i < sk.length) : (searchChain sk i).length = sk.length - 1 := by
  simp only [searchChain, List.length_append, List.length_drop,
    List.length_take]
  omega

theorem searchChain_getElem? (sk : List (Option Nat)) (i d : Nat)
    (hi : i < sk.length) (hd1 : 1 ≤ d) (hdn : d < sk.length) :
    (searchChain sk i)[d - 1]? = sk[(i + d) % sk.length]? := by
  unfold searchChain
  by_cases hcase : i + d < sk.length
  · rw [List.getElem?_append_left (by simp only [List.length_drop]; omega),
      List.getElem?_drop, show i + 1 + (d - 1) = i + d by omega,
      Nat.mod_eq_of_lt hcase]
  · rw [List.getElem?_append_right (by simp only [List.length_drop]; omega)]
    rw [List.length_drop, List.getElem?_take_of_lt (by omega)]
    have hm : (i + d) % sk.length = i + d - sk.length := by
      rw [Nat.mod_eq_sub_mod (by omega), Nat.mod_eq_of_lt (by omega)]
    rw [hm]
    congr 1
    omega

theorem mem_searchChain_of_ne (sk : List (Option Nat)) (i j : Nat)
    (x : Option Nat) (hj : sk[j]? = some x) (hne : j ≠ i) :
    x ∈ searchChain sk i := by
  unfold searchChain
  rcases Nat.lt_or_ge j i with h | h
  · refine List.mem_append.mpr (Or.inr (List.getElem?_mem (n := j) ?_))
    rw [List.getElem?_take_of_lt h]
    exact hj
  · have hgt : i < j := by omega
    refine List.mem_append.mpr
      (Or.inl (List.getElem?_mem (n := j - (i + 1)) ?_))
    rw [List.getElem?_drop, show i + 1 + (j - (i + 1)) = j by omega]
    exact hj

theorem densifyAux_getElem? (off : Nat) (ind : List Bool)
    (sk : List (Option Nat)) :
    ∀ (rest : List (Option Nat)) (i0 : Nat) (l : List Nat),
      densifyAux off ind sk i0 rest = some l →
        l.length = rest.length ∧
          ∀ k v, rest[k]? = some v →
            ∃ x, densifyBin off ind sk (i0 + k) v = some x ∧ l[k]? = some x := by
  intro rest
  induction rest with
  | nil =>
    intro i0 l h
    rw [densifyAux] at h
    injection h with h
    subst h
    simp
  | cons v rest ih =>
    intro i0 l h
    rw [densifyAux] at h
    cases hb : densifyBin off ind sk i0 v with
    | none => rw [hb] at h; cases h
    | some d =>
      rw [hb] at h
      cases ha : densifyAux off ind sk (i0 + 1) rest with
      | none => rw [ha] at h; cases h
      | some tl =>
        rw [ha] at h
        have hl : d :: tl = l := by simpa using h
        subst hl
        obtain ⟨hlen, hspec⟩ := ih (i0 + 1) tl ha
        refine ⟨by simp [hlen], fun k w hk => ?_⟩
        cases k with
        | zero =>
          simp only [List.getElem?_cons_zero, Option.some.injEq] at hk
          subst hk
          exact ⟨d, by simpa using hb, by simp⟩
        | succ k' =>
          simp only [List.getElem?_cons_succ] at hk ⊢
          obtain ⟨x, hx1, hx2⟩ := hspec k' w hk
          exact ⟨x, by rw [show i0 + (k' + 1) = i0 + 1 + k' by omega]; exact hx1, hx2⟩

theorem densifyAux_isSome (off : Nat) (ind : List Bool)
    (sk : List (Option Nat)) :
    ∀ (rest : List (Option Nat)) (i0 : Nat),
      (∀ k v, rest[k]? = some v →
          ∃ x, densifyBin off ind sk (i0 + k) v = some x) →
        ∃ l, densifyAux off ind sk i0 rest = some l := by
  intro rest
  induction rest with
  | nil => exact fun i0 _ => ⟨[], rfl⟩
  | cons v rest ih =>
    intro i0 hall
    obtain ⟨x, hx⟩ := hall 0 v (by simp)
    obtain ⟨tl, htl⟩ := ih (i0 + 1) fun k w hk => by
      have := hall (k + 1) w (by simpa using hk)
      simpa [show i0 + (k + 1) = i0 + 1 + k by omega] using this
    rw [densifyAux]
    simp only [Nat.add_zero] at hx
    rw [hx, htl]
    exact ⟨x :: tl, rfl⟩

theorem densifyBin_isSome (off : Nat) (ind : List Bool)
    (sk : List (Option Nat)) (i : Nat) (v0 : Option Nat) (w j : Nat)
    (hslot : sk[i]? = some v0) (hj : sk[j]? = some (some w)) :
    ∃ x, densifyBin off ind sk i v0 = some x := by
  cases v0 with
  | some val => exact ⟨val, rfl⟩
  | none =>
    have hne : j ≠ i := by
      intro h
      rw [h, hslot] at hj
      simp at hj
    have hm : (some w) ∈ searchChain sk i :=
      mem_searchChain_of_ne sk i j _ hj hne
    by_cases hi : ind.getD i false
    · simp only [densifyBin, hi, if_true]
      cases hf : findFirstSome (searchChain sk i) with
      | none =>
        have := (findFirstSome_eq_none_iff _).mp hf _ hm
        simp at this
      | some p => exact ⟨(p.2 + (p.1 + 1) * off) % 2 ^ 32, rfl⟩
    · simp only [Bool.not_eq_true] at hi
      simp only [densifyBin, hi, Bool.false_eq_true, if_false]
      cases hf : findFirstSome (searchChain sk i).reverse with
      | none =>
        have := (findFirstSome_eq_none_iff _).mp hf _
          (List.mem_reverse.mpr hm)
        simp at this
      | some p => exact ⟨(p.2 + (p.1 + 1) * off) % 2 ^ 32, rfl⟩

theorem mem_dedupAdj {α : Type} [DecidableEq α] (l : List α) (x : α) :
    x ∈ dedupAdj l ↔ x ∈ l := by
  induction l with
  | nil => simp [dedupAdj]
  | cons a t ih =>
    cases t with
    | nil => simp [dedupAdj]
    | cons b t2 =>
      rw [dedupAdj]
      by_cases hab : a = b
      · subst hab
        rw [if_pos rfl, ih]
        simp
      · rw [if_neg hab]
        simp only [List.mem_cons] at ih ⊢
        rw [ih]

theorem sorted_lt_dedupAdj {α : Type} [DecidableEq α] [LinearOrder α] (l : List α)
    (hs : l.Sorted (· ≤ ·)) : (dedupAdj l).Sorted (· < ·) := by
  induction l with
  | nil => simp [dedupAdj]
  | cons a t ih =>
    cases t with
    | nil => simp [dedupAdj]
    | cons b t2 =>
      rw [dedupAdj]
      have hs' : (b :: t2).Sorted (· ≤ ·) := hs.of_cons
      by_cases hab : a = b
      · rw [if_pos hab]
        exact ih hs'
      · rw [if_neg hab]
        refine List.sorted_cons.mpr ⟨fun y hy => ?_, ih hs'⟩
        have hyin : y ∈ b :: t2 := (mem_dedupAdj _ y).mp hy
        have hay : a ≤ y := List.rel_of_sorted_cons hs y hyin
        rcases lt_or_eq_of_le hay with h | h
        · exact h
        · exfalso
          have hby : b ≤ y := by
            rcases List.mem_cons.mp hyin with rfl | hyt2
            · exact le_refl y
            · exact List.rel_of_sorted_cons hs' y hyt2
          have hab' : a ≤ b :=
            List.rel_of_sorted_cons hs b (List.mem_cons_self b t2)
          exact hab (le_antisymm hab' (h ▸ hby))

theorem sortDedup_nodup {α : Type} [DecidableEq α] [LinearOrder α] (l : List α) :
    (dedupAdj (List.insertionSort (· ≤ ·) l)).Nodup :=
  (sorted_lt_dedupAdj _ (List.sorted_insertionSort _ l)).nodup

theorem mem_sortDedup {α : Type} [DecidableEq α] [LinearOrder α] (l : List α) (x : α) :
    x ∈ dedupAdj (List.insertionSort (· ≤ ·) l) ↔ x ∈ l := by
  rw [mem_dedupAdj, List.mem_insertionSort]

theorem mem_take_of_sorted_lt {α : Type} [LinearOrder α] :
    ∀ (l : List α), l.Sorted (· < ·) → ∀ (k : Nat) (x : α),
      (x ∈ l.take k ↔
        x ∈ l ∧ l.countP (fun y => decide (y < x)) < k) := by
  intro l
  induction l with
  | nil => simp
  | cons a t ih =>
    intro hs k x
    have ht : t.Sorted (· < ·) := hs.of_cons
    cases k with
    | zero => simp
    | succ k' =>
      rw [List.take_succ_cons]
      by_cases hxa : x = a
      · subst hxa
        have hcount : (x :: t).countP (fun y => decide (y < x)) = 0 := by
          rw [List.countP_eq_zero]
          intro y hy
          rcases List.mem_cons.mp hy with rfl | hyt
          · simp
          · have := List.rel_of_sorted_cons hs y hyt
            simp only [decide_eq_true_eq]
            exact not_lt_of_gt this
        simp [hcount]
      · have hmem : x ∈ a :: List.take k' t ↔ x ∈ List.take k' t := by
          simp [List.mem_cons, hxa]
        rw [hmem, ih ht k' x]
        constructor
        · rintro ⟨hxt, hc⟩
          have hax : a < x := List.rel_of_sorted_cons hs x hxt
          refine ⟨List.mem_cons_of_mem a hxt, ?_⟩
          rw [List.countP_cons, if_pos (decide_eq_true hax)]
          omega
        · rintro ⟨hxl, hc⟩
          have hxt : x ∈ t := by
            rcases List.mem_cons.mp hxl with rfl | h
            · exact absurd rfl hxa
            · exact h
          have hax : a < x := List.rel_of_sorted_cons hs x hxt
          refine ⟨hxt, ?_⟩
          rw [List.countP_cons, if_pos (decide_eq_true hax)] at hc
          omega

theorem chunksOfGo_spec {α : Type} (k : Nat) (hk : 0 < k) :
    ∀ (L : Nat) (l : List α) (fuel : Nat), l.length = L * k →
      l.length ≤ fuel →
      (chunksOfGo k fuel l).length = L ∧
        ∀ i, i < L → (chunksOfGo k fuel l)[i]? =
          some ((l.drop (i * k)).take k) := by
  intro L
  induction L with
  | zero =>
    intro l fuel hl _
    have hnil : l = [] := List.eq_nil_of_length_eq_zero (by simpa using hl)
    subst hnil
    exact ⟨by cases fuel <;> rfl, fun i hi => absurd hi (Nat.not_lt_zero i)⟩
  | succ L ih =>
    intro l fuel hl hf
    rw [Nat.succ_mul] at hl
    match l, fuel, hl, hf with
    | [], _, hl, _ => simp at hl; omega
    | a :: t, 0, _, hf => simp at hf
    | a :: t, fuel + 1, hl, hf =>
      rw [chunksOfGo]
      simp only [List.length_cons] at hl hf
      have htlen : (t.drop (k - 1)).length = L * k := by
        simp only [List.length_drop]
        omega
      obtain ⟨ihl, ihg⟩ := ih (t.drop (k - 1)) fuel htlen
        (by simp only [List.length_drop]; omega)
      refine ⟨by simp [ihl], fun i hi => ?_⟩
      cases i with
      | zero => simp
      | succ i' =>
        have hik : (i' + 1) * k = i' * k + k := Nat.succ_mul i' k
        rw [List.getElem?_cons_succ, ihg i' (by omega)]
        congr 1
        rw [List.drop_drop]
        obtain ⟨m, hm⟩ : ∃ m, (i' + 1) * k = m + 1 :=
          ⟨(i' + 1) * k - 1, by omega⟩
        rw [hm, List.drop_succ_cons, show k - 1 + i' * k = m by omega]

theorem chunksOf_spec {α : Type} (k L : Nat) (hk : 0 < k) (l : List α)
    (hl : l.length = L * k) :
    (chunksOf k l).length = L ∧
      ∀ i, i < L → (chunksOf k l)[i]? = some ((l.drop (i * k)).take k) :=
  chunksOfGo_spec k hk L l l.length hl (le_refl _)

theorem bucketGet_cons {K V : Type} [DecidableEq K] (q : List K × List V)
    (rest : List (List K × List V)) (key : List K) :
    bucketGet (q :: rest) key =
      if q.1 = key then some q.2 else bucketGet rest key := by
  rw [bucketGet, List.find?_cons]
  by_cases h : q.1 = key
  · simp [h]
  · simp [h, bucketGet]

theorem bucketGet_bucketInsert {K V : Type} [DecidableEq K]
    (band : List (List K × List V)) (key key' : List K) (id : V) :
    bucketGet (bucketInsert band key id) key' =
      if key' = key then some ((bucketGet band key).getD [] ++ [id])
      else bucketGet band key' := by
  induction band with
  | nil =>
    rw [bucketInsert, bucketGet_cons]
    by_cases h : key' = key
    · subst h
      simp [bucketGet]
    · have h' : ¬(key = key') := fun hh => h hh.symm
      simp [h, h', bucketGet]
  | cons p rest ih =>
    rw [bucketInsert]
    by_cases hp : p.1 = key
    · subst hp
      rw [if_pos rfl, bucketGet_cons, bucketGet_cons]
      by_cases hk : key' = p.1
      · subst hk
        simp
      · have hpk : ¬(p.1 = key') := fun hh => hk hh.symm
        simp only [hpk, if_false, hk]
        rw [bucketGet_cons, if_neg hpk]
    · rw [if_neg hp, bucketGet_cons, ih, bucketGet_cons]
      by_cases hk : key' = key
      · subst hk
        have hpk : ¬(p.1 = key') := hp
        simp [hpk]
      · simp only [hk, if_false]
        rw [bucketGet_cons]

theorem updateBands_spec {K V : Type} [DecidableEq K] :
    ∀ (bands : List (List (List K × List V))) (chunks : List (List K))
      (id : V),
      (updateBands bands chunks id).length = bands.length ∧
        ∀ i, (updateBands bands chunks id)[i]? =
          if i < chunks.length then
            (bands[i]?).map fun b => bucketInsert b (chunks.getD i []) id
          else bands[i]? := by
  intro bands
  induction bands with
  | nil =>
    intro chunks id
    cases chunks <;> simp [updateBands]
  | cons b bands ih =>
    intro chunks id
    cases chunks with
    | nil => simp [updateBands]
    | cons c cs =>
      rw [updateBands]
      obtain ⟨ihl, ihg⟩ := ih cs id
      refine ⟨by simp [ihl], fun i => ?_⟩
      cases i with
      | zero => simp
      | succ i' =>
        simp only [List.getElem?_cons_succ, ihg i', List.length_cons,
          List.getD_cons_succ, Nat.add_lt_add_iff_right]

theorem mem_collectHits {K V : Type} [DecidableEq K] :
    ∀ (bands : List (List (List K × List V))) (chunks : List (List K))
      (v : V),
      v ∈ collectHits bands chunks ↔
        ∃ i, i < chunks.length ∧ i < bands.length ∧
          v ∈ (bucketGet (bands.getD i []) (chunks.getD i [])).getD [] := by
  intro bands
  induction bands with
  | nil =>
    intro chunks v
    cases chunks <;> simp [collectHits]
  | cons b bands ih =>
    intro chunks v
    cases chunks with
    | nil => simp [collectHits]
    | cons c cs =>
      rw [collectHits, List.mem_append, ih cs v]
      constructor
      · rintro (h | ⟨i, h1, h2, h3⟩)
        · exact ⟨0, by simp, by simp, by simpa using h⟩
        · exact ⟨i + 1, by simpa using h1, by simpa using h2, by simpa using h3⟩
      · rintro ⟨i, h1, h2, h3⟩
        cases i with
        | zero => exact Or.inl (by simpa using h3)
        | succ i' =>
          exact Or.inr ⟨i', by simpa using h1, by simpa using h2,
            by simpa using h3⟩

/-! ## Claim theorems -/

/-- C9: for every input `x`, `hash x` is the high 32 bits of
`(A·x + B) mod 2^64` with the exact constants A = 11927359292700924260 and
B = 6512515406574399413; the result always fits in 32 bits, and the
regression value `hash 100 = 48913034` holds.  The function is pure and
deterministic by construction (a function of its argument alone). -/
theorem hash_is_high_bits_of_affine :
    hash 100 = 48913034 ∧
      ∀ x : Nat,
        hash x =
            (11927359292700924260 * x + 6512515406574399413) % 2 ^ 64 / 2 ^ 32 ∧
          hash x < 2 ^ 32 := by
  refine ⟨by decide, fun x => ⟨?_, ?_⟩⟩
  · rw [hash, hashA, hashB]
    conv_rhs => rw [Nat.add_mod]
    norm_num
  · have h : (hashA * x % 2 ^ 64 + hashB) % 2 ^ 64 < 2 ^ 64 :=
      Nat.mod_lt _ (by norm_num)
    exact Nat.div_lt_of_lt_mul (by calc
      (hashA * x % 2 ^ 64 + hashB) % 2 ^ 64 < 2 ^ 64 := h
      _ = 2 ^ 32 * 2 ^ 32 := by norm_num)

/-- C7: the flattener seeds `virtual_end` from the first interval's end
and, for each subsequent interval `[start, end)`, skips it when
`end ≤ virtual_end`, emits all of `[start, end)` when `start ≥ virtual_end`,
and otherwise emits only the tail `[virtual_end, end)`, updating
`virtual_end` to `end` in the latter two cases.  Consequently the intervals
`[(1,2),(4,10)]` offset by 3 flatten to exactly the positions of `(4,5)`
and `(7,13)`, and the overlapping `[(1,5),(3,8)]` flatten to exactly the
positions `1,…,7` of `[1,8)` — each position once, none missing. -/
theorem intervals_to_vec_characterization :
    (∀ d rest, intervals_to_vec (d :: rest) =
        some (emitRange d.start d.stop ++ flattenRest d.stop rest)) ∧
      (∀ ve d rest, flattenRest ve (d :: rest) =
        if d.stop ≤ ve then flattenRest ve rest
        else if ve ≤ d.start then emitRange d.start d.stop ++ flattenRest d.stop rest
        else emitRange ve d.stop ++ flattenRest d.stop rest) ∧
      intervals_to_vec (offset_data [⟨1, 2⟩, ⟨4, 10⟩] 3) =
        some (emitRange 4 5 ++ emitRange 7 13) ∧
      intervals_to_vec [⟨1, 5⟩, ⟨3, 8⟩] = some [1, 2, 3, 4, 5, 6, 7] := by
  exact ⟨fun d rest => rfl, fun ve d rest => rfl, by decide, by decide⟩

/-- C10: the interval-consuming sketch builders are only total on
non-empty input: `sketch` (hence `dense_sketch`) and `intervals_to_vec`
read the first element of their interval slice unconditionally, so on the
empty sequence they panic (modelled `none`) instead of returning an empty
sketch or an error, while on any non-empty sequence they return a value —
with every bin index `hash i % numBins` in bounds for the `numBins`-long
output whenever `numBins > 0` (which `OnePermutationHasher::new`
guarantees, since it divides by `num_bins`). -/
theorem sketch_builders_need_nonempty_input :
    (∀ numBins, sketch numBins [] = none) ∧
      intervals_to_vec [] = none ∧
      (∀ numBins offset ind, dense_sketch numBins offset ind [] = none) ∧
      (∀ numBins d rest,
        ∃ l, sketch numBins (d :: rest) = some l ∧ l.length = numBins) ∧
      (∀ d rest, (intervals_to_vec (d :: rest)).isSome) ∧
      (∀ numBins i, 0 < numBins → hash i % numBins < numBins) := by
  refine ⟨fun _ => rfl, rfl, fun _ _ _ => rfl, fun numBins d rest => ?_,
    fun d rest => rfl, fun numBins i h => Nat.mod_lt _ h⟩
  refine ⟨_, rfl, ?_⟩
  rw [sketchRest_length, sketchFold_length, List.length_replicate]

/-- Witness for C10: a concrete bin index is in bounds for four bins, and
the one-interval input sketches to a 4-bin sketch. -/
theorem sketch_builders_need_nonempty_input_witness :
    hash 7 % 4 < 4 ∧ ∃ l, sketch 4 [⟨1, 3⟩] = some l ∧ l.length = 4 :=
  ⟨sketch_builders_need_nonempty_input.2.2.2.2.2 4 7 (by decide),
    sketch_builders_need_nonempty_input.2.2.2.1 4 ⟨1, 3⟩ []⟩

/-- C4: `densify` keeps every non-empty bin's value; it fills an empty bin
`i` with `neighbor_value + d·offset` (u32 wrapping arithmetic) where `d ≥ 1`
is the circular distance to the nearest non-empty bin, searched forward
(`(i + d) % n`) when bin `i`'s indicator is true and backward
(`(i + (n − d)) % n`) when it is false; it succeeds whenever some bin is
non-empty and fails (EmptySketchError) when every bin of a non-empty sketch
is empty.  On `[empty, empty, empty, 2]` with `num_bins = 4`, any indicator
sequence with the fixed seed's values at the positions that matter
(`ind[0] = true`, `ind[2] = true`, as asserted by the repository's own
seeded test) yields exactly
`[2 + 3·offset, 2 + 2·offset, 2 + offset, 2]`, and
`offset = ⌊MAX_32BIT/4⌋ + 1 = 2^30`. -/
theorem densify_shrivastava_li_scheme :
    (∀ off ind (sk : List (Option Nat)), sk ≠ [] → (∀ x ∈ sk, x = none) →
        densify off ind sk = none) ∧
      (∀ off ind (sk : List (Option Nat)) w, (some w) ∈ sk →
        ∃ l, densify off ind sk = some l ∧ l.length = sk.length) ∧
      (∀ off (ind : List Bool) (sk : List (Option Nat)) (l : List Nat)
          (i v : Nat), densify off ind sk = some l →
        sk[i]? = some (some v) → l[i]? = some v) ∧
      (∀ off (ind : List Bool) (sk : List (Option Nat)) (l : List Nat)
          (i d v : Nat), densify off ind sk = some l →
        sk[i]? = some none → ind.getD i false = true →
        1 ≤ d → d < sk.length →
        (∀ e, e < d → 1 ≤ e → sk[(i + e) % sk.length]? = some none) →
        sk[(i + d) % sk.length]? = some (some v) →
        l[i]? = some ((v + d * off) % 2 ^ 32)) ∧
      (∀ off (ind : List Bool) (sk : List (Option Nat)) (l : List Nat)
          (i d v : Nat), densify off ind sk = some l →
        sk[i]? = some none → ind.getD i false = false →
        1 ≤ d → d < sk.length →
        (∀ e, e < d → 1 ≤ e →
          sk[(i + (sk.length - e)) % sk.length]? = some none) →
        sk[(i + (sk.length - d)) % sk.length]? = some (some v) →
        l[i]? = some ((v + d * off) % 2 ^ 32)) ∧
      (∀ ind, ind.getD 0 false = true → ind.getD 2 false = true →
        densify (mkOffset 4) ind [none, none, none, some 2] =
          some [2 + 3 * mkOffset 4, 2 + 2 * mkOffset 4, 2 + mkOffset 4, 2]) ∧
      mkOffset 4 = 2 ^ 30 := by
  refine ⟨?_, ?_, ?_, ?_, ?_, ?_, by norm_num [mkOffset]⟩
  · -- all-empty, non-empty sketch: the very first bin's search fails
    intro off ind sk hne hall
    match sk, hne with
    | x :: rest, _ =>
      have hx : x = none := hall x (List.mem_cons_self x rest)
      subst hx
      have hch : ∀ y ∈ searchChain (none :: rest) 0, y = none := by
        intro y hy
        simp only [searchChain, List.drop_succ_cons, List.drop_zero,
          List.take_zero, List.append_nil] at hy
        exact hall y (List.mem_cons_of_mem _ hy)
      have hbin : densifyBin off ind (none :: rest) 0 none = none := by
        by_cases hi : ind.getD 0 false
        · simp only [densifyBin, hi, if_true,
            (findFirstSome_eq_none_iff _).mpr hch]
        · simp only [Bool.not_eq_true] at hi
          simp only [densifyBin, hi, Bool.false_eq_true, if_false,
            (findFirstSome_eq_none_iff _).mpr
              (fun y hy => hch y (List.mem_reverse.mp hy))]
      rw [densify, densifyAux, hbin]
  · -- some non-empty bin: densification succeeds, preserving length
    intro off ind sk w hw
    obtain ⟨j, hj⟩ := List.mem_iff_getElem?.mp hw
    obtain ⟨l, hl⟩ := densifyAux_isSome off ind sk sk 0 fun k v hk => by
      simpa using densifyBin_isSome off ind sk k v w j hk hj
    exact ⟨l, hl, ((densifyAux_getElem? off ind sk sk 0 l hl).1)⟩
  · -- non-empty bins keep their value
    intro off ind sk l i v hd hi
    obtain ⟨x, hx1, hx2⟩ := (densifyAux_getElem? off ind sk sk 0 l hd).2 i _ hi
    have : some v = some x := hx1
    injection this with h
    rw [← h] at hx2
    exact hx2
  · -- empty bin, indicator true: fill from the nearest forward neighbor
    intro off ind sk l i d v hd hslot hind hd1 hdn hmin hv
    have hi_lt : i < sk.length := (List.getElem?_eq_some_iff.mp hslot).1
    have hfind : findFirstSome (searchChain sk i) = some (d - 1, v) := by
      rw [findFirstSome_eq_some_iff]
      constructor
      · rw [searchChain_getElem? sk i d hi_lt hd1 hdn]
        exact hv
      · intro j hj
        have := searchChain_getElem? sk i (j + 1) hi_lt (by omega) (by omega)
        simp only [Nat.add_sub_cancel] at this
        rw [this]
        exact hmin (j + 1) (by omega) (by omega)
    obtain ⟨x, hx1, hx2⟩ := (densifyAux_getElem? off ind sk sk 0 l hd).2 i _ hslot
    simp only [Nat.zero_add] at hx1
    simp only [densifyBin, hind, if_true, hfind] at hx1
    have : ((v + (d - 1 + 1) * off) % 2 ^ 32) = x := by
      injection hx1
    rw [← this, show d - 1 + 1 = d by omega] at hx2
    exact hx2
  · -- empty bin, indicator false: fill from the nearest backward neighbor
    intro off ind sk l i d v hd hslot hind hd1 hdn hmin hv
    have hi_lt : i < sk.length := (List.getElem?_eq_some_iff.mp hslot).1
    have hclen : (searchChain sk i).length = sk.length - 1 :=
      searchChain_length sk i hi_lt
    have hfind : findFirstSome (searchChain sk i).reverse = some (d - 1, v) := by
      rw [findFirstSome_eq_some_iff]
      constructor
      · rw [List.getElem?_reverse (by omega), hclen,
          show sk.length - 1 - 1 - (d - 1) = sk.length - d - 1 by omega]
        have := searchChain_getElem? sk i (sk.length - d) hi_lt
          (by omega) (by omega)
        rw [show sk.length - d - 1 = sk.length - d - 1 by rfl] at this ⊢
        rw [this]
        exact hv
      · intro j hj
        rw [List.getElem?_reverse (by omega), hclen,
          show sk.length - 1 - 1 - j = sk.length - (j + 1) - 1 by omega]
        have := searchChain_getElem? sk i (sk.length - (j + 1)) hi_lt
          (by omega) (by omega)
        rw [this]
        exact hmin (j + 1) (by omega) (by omega)
    obtain ⟨x, hx1, hx2⟩ := (densifyAux_getElem? off ind sk sk 0 l hd).2 i _ hslot
    simp only [Nat.zero_add] at hx1
    simp only [densifyBin, hind, Bool.false_eq_true, if_false, hfind] at hx1
    have : ((v + (d - 1 + 1) * off) % 2 ^ 32) = x := by
      injection hx1
    rw [← this, show d - 1 + 1 = d by omega] at hx2
    exact hx2
  · -- the repository's seeded densification fixture
    intro ind h0 h2
    have o4 : mkOffset 4 = 1073741824 := by norm_num [mkOffset]
    cases hb : ind.getD 1 false <;>
      · simp only [densify, densifyAux, densifyBin, searchChain,
          findFirstSome, h0, h2, hb, o4]
        norm_num

/-- Witness for C4: the all-empty single-bin sketch fails to densify; the
4-bin fixture densifies to the asserted values, and its bin 0 is indeed
filled from the neighbor at forward circular distance 3. -/
theorem densify_shrivastava_li_scheme_witness :
    densify 5 [true] [none] = none ∧
      densify (mkOffset 4) [true, true, true, true]
          [none, none, none, some 2] =
        some [2 + 3 * mkOffset 4, 2 + 2 * mkOffset 4, 2 + mkOffset 4, 2] ∧
      [2 + 3 * mkOffset 4, 2 + 2 * mkOffset 4, 2 + mkOffset 4, 2][0]? =
        some ((2 + 3 * mkOffset 4) % 2 ^ 32) :=
  ⟨densify_shrivastava_li_scheme.1 5 [true] [none] (by decide) (by decide),
    densify_shrivastava_li_scheme.2.2.2.2.2.1 [true, true, true, true]
      (by decide) (by decide),
    densify_shrivastava_li_scheme.2.2.2.1 (mkOffset 4)
      [true, true, true, true] [none, none, none, some 2]
      [2 + 3 * mkOffset 4, 2 + 2 * mkOffset 4, 2 + mkOffset 4, 2] 0 3 2
      (densify_shrivastava_li_scheme.2.2.2.2.2.1 [true, true, true, true]
        (by decide) (by decide))
      (by decide) (by decide) (by decide) (by decide) (by decide) (by decide)⟩

/-- C3: the bottom-k `jaccard(A, B)` returns `|M ∩ I| / k` where `M`
(`merge`'s heap) holds exactly those members `x` of the duplicate-free
union of A's and B's retained members whose rank (number of distinct union
members strictly below `x` in the derived hash-primary order) is below
`k = A.queue_size`, i.e. the k smallest-hash elements of the union; `I` is
the set-intersection of the two member sets (the filter below); and the
denominator is always the configured `queue_size` of A — never the number
of elements actually retained, as the last fixture shows: both queues
retain a single (identical) element yet the estimate is 1/2, not 1.  The
repository's own two jaccard fixtures (disjoint → 0, one shared of k = 2 →
1/2) are reproduced. -/
theorem bottom_k_jaccard_estimator :
    (∀ (a b : BoundedPriorityQueue) (x : HashWithValue),
        x ∈ (bpqMerge a b).heap ↔
        ((x ∈ a.heap ∨ x ∈ b.heap) ∧
          (dedupAdj (List.insertionSort (· ≤ ·) (a.heap ++ b.heap))).countP
              (fun y => decide (y < x)) < a.queue_size)) ∧
      (∀ (a b : BoundedPriorityQueue) (x : HashWithValue),
        (dedupAdj (List.insertionSort (· ≤ ·) (a.heap ++ b.heap))).countP
            (fun y => decide (y < x)) =
          ((a.heap ++ b.heap).dedup).countP (fun y => decide (y < x))) ∧
      (∀ a b : BoundedPriorityQueue, (bpqMerge a b).queue_size = a.queue_size ∧
        (bpqMerge a b).heap.Nodup ∧
        (bpqMerge a b).heap.length ≤ a.queue_size) ∧
      (∀ a b : BoundedPriorityQueue, bkJaccard a b =
        (((bpqMerge a b).heap.filter fun x =>
            decide (x ∈ a.heap) && decide (x ∈ b.heap)).length : ℚ) /
          (a.queue_size : ℚ)) ∧
      bkJaccard ⟨2, [⟨1, 2⟩, ⟨2, 4⟩, ⟨4, 8⟩]⟩
          ⟨2, [⟨3, 8⟩, ⟨6, 9⟩, ⟨7, 10⟩]⟩ = 0 ∧
      bkJaccard ⟨2, [⟨1, 2⟩, ⟨2, 4⟩, ⟨4, 8⟩]⟩
          ⟨2, [⟨1, 2⟩, ⟨6, 9⟩, ⟨7, 10⟩]⟩ = 1 / 2 ∧
      bkJaccard ⟨2, [⟨1, 2⟩]⟩ ⟨2, [⟨1, 2⟩]⟩ = 1 / 2 := by
  refine ⟨fun a b x => ?_, fun a b x => ?_, fun a b => ?_, fun a b => rfl,
    ?_, ?_, ?_⟩
  · show x ∈ (dedupAdj (List.insertionSort (· ≤ ·)
        (a.heap ++ b.heap))).take a.queue_size ↔ _
    rw [mem_take_of_sorted_lt _
      (sorted_lt_dedupAdj _ (List.sorted_insertionSort _ _)),
      mem_sortDedup, List.mem_append]
  · refine List.Perm.countP_eq _ ?_
    refine ((sortDedup_nodup _).subperm fun y hy => ?_).antisymm
      ((List.nodup_dedup _).subperm fun y hy => ?_)
    · rw [List.mem_dedup]
      exact (mem_sortDedup _ y).mp hy
    · rw [mem_sortDedup]
      exact List.mem_dedup.mp hy
  · exact ⟨rfl, (List.take_sublist _ _).nodup (sortDedup_nodup _),
      List.length_take_le _ _⟩
  · have h : bkJaccard ⟨2, [⟨1, 2⟩, ⟨2, 4⟩, ⟨4, 8⟩]⟩
        ⟨2, [⟨3, 8⟩, ⟨6, 9⟩, ⟨7, 10⟩]⟩ = ((0 : Nat) : ℚ) / ((2 : Nat) : ℚ) :=
      rfl
    rw [h]
    norm_num
  · have h : bkJaccard ⟨2, [⟨1, 2⟩, ⟨2, 4⟩, ⟨4, 8⟩]⟩
        ⟨2, [⟨1, 2⟩, ⟨6, 9⟩, ⟨7, 10⟩]⟩ = ((1 : Nat) : ℚ) / ((2 : Nat) : ℚ) :=
      rfl
    rw [h]
    norm_num
  · have h : bkJaccard ⟨2, [⟨1, 2⟩]⟩ ⟨2, [⟨1, 2⟩]⟩ =
        ((1 : Nat) : ℚ) / ((2 : Nat) : ℚ) := rfl
    rw [h]
    norm_num

/-- C6: `Lsh::insert` is idempotent per id with first-write-wins
semantics: when `id` is already stored, a second insert — even with a
different sketch — returns the index completely unchanged (hence the
stored canonical sketch and every band bucket's membership are unchanged);
when `id` is new and the sketch chunks, insert stores the sketch under
`id` (`lookupSketch` then finds it) and updates band `i` by appending `id`
to the bucket keyed by chunk `i`, creating the bucket when absent — the
per-bucket effect being exactly the `bucketGet_bucketInsert` equation.
The concrete fixture re-inserts id 12 with a different sketch and nothing
changes. -/
theorem lsh_insert_first_write_wins {K V : Type} [DecidableEq K]
    [DecidableEq V] :
    (∀ (lsh : Lsh K V) (sk : List K) (id : V),
        (lookupSketch lsh id).isSome → insert lsh sk id = .ok lsh) ∧
      (∀ (lsh : Lsh K V) (sk : List K) (id : V) (chunks : List (List K)),
        lookupSketch lsh id = none → chunk_sketch lsh sk = .ok chunks →
        insert lsh sk id = .ok
            { lsh with sketches := lsh.sketches ++ [(id, sk)],
                       hashers := updateBands lsh.hashers chunks id } ∧
          lookupSketch
              { lsh with sketches := lsh.sketches ++ [(id, sk)],
                         hashers := updateBands lsh.hashers chunks id } id =
            some sk) ∧
      (∀ (band : List (List K × List V)) (key key' : List K) (id : V),
        bucketGet (bucketInsert band key id) key' =
          if key' = key then some ((bucketGet band key).getD [] ++ [id])
          else bucketGet band key') ∧
      (∀ (bands : List (List (List K × List V))) (chunks : List (List K))
          (id : V) (i : Nat),
        (updateBands bands chunks id).length = bands.length ∧
          ((updateBands bands chunks id)[i]? =
            if i < chunks.length then
              (bands[i]?).map fun b => bucketInsert b (chunks.getD i []) id
            else bands[i]?)) ∧
      (insert (lshNew Nat Nat 3 2) [1, 2, 3, 4, 5, 6] 12 =
          .ok ⟨[[([1, 2], [12])], [([3, 4], [12])], [([5, 6], [12])]], 3, 2,
            [(12, [1, 2, 3, 4, 5, 6])]⟩ ∧
        insert (⟨[[([1, 2], [12])], [([3, 4], [12])], [([5, 6], [12])]], 3, 2,
            [(12, [1, 2, 3, 4, 5, 6])]⟩ : Lsh Nat Nat) [7, 8, 9, 10, 11, 12]
            12 =
          .ok ⟨[[([1, 2], [12])], [([3, 4], [12])], [([5, 6], [12])]], 3, 2,
            [(12, [1, 2, 3, 4, 5, 6])]⟩) := by
  refine ⟨fun lsh sk id h => ?_, fun lsh sk id chunks h1 h2 => ⟨?_, ?_⟩,
    fun band key key' id => bucketGet_bucketInsert band key key' id,
    fun bands chunks id i =>
      ⟨(updateBands_spec bands chunks id).1,
        (updateBands_spec bands chunks id).2 i⟩,
    by decide, by decide⟩
  · rw [insert, if_pos h]
  · rw [insert, if_neg (by simp [h1]), h2]
  · have hf : lsh.sketches.find? (fun q => decide (q.1 = id)) = none := by
      have h1' := h1
      rw [lookupSketch] at h1'
      exact Option.map_eq_none'.mp h1'
    rw [lookupSketch]
    simp [List.find?_append, hf, List.find?_cons]

/-- Witness for C6: a second insert of id 12 under a different sketch
leaves the concrete index unchanged; the no-op branch is exercised through
the theorem's first conjunct, and the fresh-insert branch through its
second. -/
theorem lsh_insert_first_write_wins_witness :
    insert (⟨[[([1, 2], [12])], [([3, 4], [12])], [([5, 6], [12])]], 3, 2,
        [(12, [1, 2, 3, 4, 5, 6])]⟩ : Lsh Nat Nat) [9, 9, 9, 9, 9, 9] 12 =
      .ok ⟨[[([1, 2], [12])], [([3, 4], [12])], [([5, 6], [12])]], 3, 2,
        [(12, [1, 2, 3, 4, 5, 6])]⟩ ∧
    insert (lshNew Nat Nat 3 2) [1, 2, 3, 4, 5, 6] 12 =
      .ok { lshNew Nat Nat 3 2 with
              sketches := (lshNew Nat Nat 3 2).sketches ++ [(12, [1, 2, 3, 4, 5, 6])],
              hashers := updateBands (lshNew Nat Nat 3 2).hashers
                (chunksOf 2 [1, 2, 3, 4, 5, 6]) 12 } :=
  ⟨lsh_insert_first_write_wins.1 _ [9, 9, 9, 9, 9, 9] 12 (by decide),
    (lsh_insert_first_write_wins.2.1 (lshNew Nat Nat 3 2) [1, 2, 3, 4, 5, 6]
        12 (chunksOf 2 [1, 2, 3, 4, 5, 6]) (by decide) (by decide)).1⟩

theorem query_eval {K V : Type} [DecidableEq K] [LinearOrder V]
    (lsh : Lsh K V) (q : List K) (hK : 0 < lsh.n_values)
    (hlen : q.length = lsh.n_hashes * lsh.n_values)
    (hh : lsh.hashers.length = lsh.n_hashes) :
    ∃ R : List V,
      query lsh q = .ok (if R.isEmpty then none else some R) ∧
        R.Sorted (· < ·) ∧
        (∀ v, v ∈ R ↔ ∃ i, i < lsh.n_hashes ∧ v ∈ bandHits lsh q i) := by
  have hcs : chunk_sketch lsh q = .ok (chunksOf lsh.n_values q) := by
    rw [chunk_sketch, if_neg (by omega), if_neg (by omega)]
  obtain ⟨hchl, hchg⟩ :=
    chunksOf_spec lsh.n_values lsh.n_hashes hK q hlen
  refine ⟨dedupAdj (List.insertionSort (· ≤ ·)
      (collectHits lsh.hashers (chunksOf lsh.n_values q))), ?_, ?_, ?_⟩
  · rw [query, hcs]
  · exact sorted_lt_dedupAdj _ (List.sorted_insertionSort _ _)
  · intro v
    rw [mem_sortDedup, mem_collectHits]
    constructor
    · rintro ⟨i, h1, h2, h3⟩
      rw [hchl] at h1
      refine ⟨i, h1, ?_⟩
      simp only [List.getD_eq_getElem?_getD, hchg i h1, Option.getD_some] at h3
      rw [bandHits, List.getD_eq_getElem?_getD]
      exact h3
    · rintro ⟨i, h1, h2⟩
      refine ⟨i, by rw [hchl]; exact h1, by rw [hh]; exact h1, ?_⟩
      rw [bandHits, List.getD_eq_getElem?_getD] at h2
      simp only [List.getD_eq_getElem?_getD, hchg i h1, Option.getD_some]
      exact h2

/-- C5: for every well-formed index (one band table per band, as `new`
builds and `insert` preserves) and query sketch of length L·K with K ≥ 1,
`query` returns exactly the union over the L bands of the ids in the
bucket keyed by that band's chunk (positions `[i·K, (i+1)·K)`; an absent
bucket contributes nothing), deduplicated and sorted strictly ascending,
and returns no match (`none`) exactly when every band's bucket is empty —
so one matching band suffices.  The spec's L = 3, K = 2 fixture: after
inserting `[1,2,3,4,5,6]` under id 12, queries sharing one chunk return
`[12]` and a query sharing no chunk returns no match. -/
theorem lsh_query_or_construction {K V : Type} [DecidableEq K]
    [LinearOrder V] :
    (∀ (lsh : Lsh K V) (q : List K) (r : List V),
        0 < lsh.n_values → q.length = lsh.n_hashes * lsh.n_values →
        lsh.hashers.length = lsh.n_hashes →
        query lsh q = .ok (some r) →
        r ≠ [] ∧ r.Sorted (· < ·) ∧
          (∀ v, v ∈ r ↔ ∃ i, i < lsh.n_hashes ∧ v ∈ bandHits lsh q i)) ∧
      (∀ (lsh : Lsh K V) (q : List K),
        0 < lsh.n_values → q.length = lsh.n_hashes * lsh.n_values →
        lsh.hashers.length = lsh.n_hashes →
        (query lsh q = .ok none ↔
          ∀ i, i < lsh.n_hashes → bandHits lsh q i = [])) ∧
      (insert (lshNew Nat Nat 3 2) [1, 2, 3, 4, 5, 6] 12 =
          .ok ⟨[[([1, 2], [12])], [([3, 4], [12])], [([5, 6], [12])]], 3, 2,
            [(12, [1, 2, 3, 4, 5, 6])]⟩ ∧
        query (⟨[[([1, 2], [12])], [([3, 4], [12])], [([5, 6], [12])]], 3, 2,
            [(12, [1, 2, 3, 4, 5, 6])]⟩ : Lsh Nat Nat) [1, 2, 17, 18, 5, 6] =
          .ok (some [12]) ∧
        query (⟨[[([1, 2], [12])], [([3, 4], [12])], [([5, 6], [12])]], 3, 2,
            [(12, [1, 2, 3, 4, 5, 6])]⟩ : Lsh Nat Nat) [1, 2, 90, 91, 92, 93] =
          .ok (some [12]) ∧
        query (⟨[[([1, 2], [12])], [([3, 4], [12])], [([5, 6], [12])]], 3, 2,
            [(12, [1, 2, 3, 4, 5, 6])]⟩ : Lsh Nat Nat) [80, 81, 82, 83, 84, 85] =
          .ok none) := by
  refine ⟨fun lsh q r hK hlen hh hq => ?_, fun lsh q hK hlen hh => ?_,
    by decide, by decide, by decide, by decide⟩
  · obtain ⟨R, hR1, hR2, hR3⟩ := query_eval lsh q hK hlen hh
    rw [hR1] at hq
    by_cases he : R.isEmpty
    · rw [if_pos he] at hq
      cases hq
    · rw [if_neg he] at hq
      have hrR : some R = some r := by injection hq
      have hrR' : R = r := by injection hrR
      subst hrR'
      exact ⟨fun hnil => he (by rw [hnil]; rfl), hR2, hR3⟩
  · obtain ⟨R, hR1, hR2, hR3⟩ := query_eval lsh q hK hlen hh
    rw [hR1]
    by_cases he : R.isEmpty
    · rw [if_pos he]
      refine iff_of_true rfl ?_
      intro i hi
      rw [List.eq_nil_iff_forall_not_mem]
      intro v hv
      have hvR : v ∈ R := (hR3 v).mpr ⟨i, hi, hv⟩
      rw [List.isEmpty_iff] at he
      rw [he] at hvR
      cases hvR
    · rw [if_neg he]
      refine iff_of_false (fun h => Option.noConfusion (Except.ok.inj h)) ?_
      intro hall
      have hne : R ≠ [] := fun hh => he (by rw [hh]; rfl)
      obtain ⟨v, hv⟩ := List.exists_mem_of_ne_nil R hne
      obtain ⟨i, hi, hvb⟩ := (hR3 v).mp hv
      rw [hall i hi] at hvb
      cases hvb

/-- Witness for C5: the general characterization applied to the concrete
L = 3, K = 2 index holding id 12 under sketch `[1,2,3,4,5,6]`: the query
`[1,2,17,18,5,6]` (sharing bands 0 and 2) matches exactly `[12]`, which is
non-empty, sorted, and is precisely the union of the band hits. -/
theorem lsh_query_or_construction_witness :
    ([12] : List Nat) ≠ [] ∧ ([12] : List Nat).Sorted (· < ·) ∧
      (∀ v : Nat, v ∈ ([12] : List Nat) ↔ ∃ i, i < 3 ∧
        v ∈ bandHits
          (⟨[[([1, 2], [12])], [([3, 4], [12])], [([5, 6], [12])]], 3, 2,
            [(12, [1, 2, 3, 4, 5, 6])]⟩ : Lsh Nat Nat) [1, 2, 17, 18, 5, 6] i) :=
  lsh_query_or_construction.1
    (⟨[[([1, 2], [12])], [([3, 4], [12])], [([5, 6], [12])]], 3, 2,
      [(12, [1, 2, 3, 4, 5, 6])]⟩ : Lsh Nat Nat) [1, 2, 17, 18, 5, 6] [12]
    (by decide) (by decide) (by decide) (by decide)

/-- C2 (amended): for every sketch whose length is not L·K,
`chunk_sketch` returns the IncorrectlyChunkedInput error (carrying the
expected length L·K and the found length), while `insert` (for a not-yet
-indexed id) and `query` fail by PANICKING on that error (they call
`.unwrap()` on it) rather than returning it; for every sketch of length
exactly L·K with K ≥ 1, `chunk_sketch` succeeds and band `i` is exactly
the sub-vector at positions `[i·K, (i+1)·K)`. -/
theorem chunk_sketch_length_guard {K V : Type} [DecidableEq K]
    [DecidableEq V] [LinearOrder V] :
    (∀ (lsh : Lsh K V) (sk : List K),
        sk.length ≠ lsh.n_hashes * lsh.n_values →
        chunk_sketch lsh sk = .error (.returned
          (.incorrectlyChunkedInput (lsh.n_hashes * lsh.n_values)
            sk.length))) ∧
      (∀ (lsh : Lsh K V) (sk : List K) (id : V),
        sk.length ≠ lsh.n_hashes * lsh.n_values →
        lookupSketch lsh id = none →
        insert lsh sk id = .error (.panicked
          (.incorrectlyChunkedInput (lsh.n_hashes * lsh.n_values)
            sk.length))) ∧
      (∀ (lsh : Lsh K V) (sk : List K),
        sk.length ≠ lsh.n_hashes * lsh.n_values →
        query lsh sk = .error (.panicked
          (.incorrectlyChunkedInput (lsh.n_hashes * lsh.n_values)
            sk.length))) ∧
      (∀ (lsh : Lsh K V) (sk : List K),
        0 < lsh.n_values → sk.length = lsh.n_hashes * lsh.n_values →
        chunk_sketch lsh sk = .ok (chunksOf lsh.n_values sk) ∧
          (chunksOf lsh.n_values sk).length = lsh.n_hashes ∧
          ∀ i, i < lsh.n_hashes → (chunksOf lsh.n_values sk)[i]? =
            some ((sk.drop (i * lsh.n_values)).take lsh.n_values)) := by
  have herr : ∀ (lsh : Lsh K V) (sk : List K),
      sk.length ≠ lsh.n_hashes * lsh.n_values →
      chunk_sketch lsh sk = .error (.returned
        (.incorrectlyChunkedInput (lsh.n_hashes * lsh.n_values)
          sk.length)) := by
    intro lsh sk h
    rw [chunk_sketch, if_pos h]
  refine ⟨herr, fun lsh sk id h hid => ?_, fun lsh sk h => ?_,
    fun lsh sk hK hlen => ?_⟩
  · rw [insert, if_neg (by simp [hid]), herr lsh sk h]
  · rw [query, herr lsh sk h]
  · obtain ⟨h1, h2⟩ := chunksOf_spec lsh.n_values lsh.n_hashes hK sk hlen
    exact ⟨by rw [chunk_sketch, if_neg (by omega), if_neg (by omega)],
      h1, h2⟩

/-- Witness for C2: the length-5 sketch in a 3×2 index draws the returned
error from `chunk_sketch` and the panic from `insert`; the length-6 sketch
chunks into `[[1,2],[3,4],[5,6]]`. -/
theorem chunk_sketch_length_guard_witness :
    chunk_sketch (lshNew Nat Nat 3 2) [1, 2, 3, 4, 5] =
        .error (.returned (.incorrectlyChunkedInput 6 5)) ∧
      insert (lshNew Nat Nat 3 2) [1, 2, 3, 4, 5] 12 =
        .error (.panicked (.incorrectlyChunkedInput 6 5)) ∧
      chunk_sketch (lshNew Nat Nat 3 2) [1, 2, 3, 4, 5, 6] =
        .ok (chunksOf 2 [1, 2, 3, 4, 5, 6]) :=
  ⟨chunk_sketch_length_guard.1 (lshNew Nat Nat 3 2) [1, 2, 3, 4, 5]
      (by decide),
    chunk_sketch_length_guard.2.1 (lshNew Nat Nat 3 2) [1, 2, 3, 4, 5] 12
      (by decide) (by decide),
    (chunk_sketch_length_guard.2.2.2 (lshNew Nat Nat 3 2) [1, 2, 3, 4, 5, 6]
      (by decide) (by decide)).1⟩

/-- C2 counterexample: the claim as stated is false on the code.  On a
wrong-length sketch the IncorrectlyChunkedInput error is NOT propagated to
the caller of `insert` or `query`: both call `.unwrap()` on it, i.e. they
panic, and no `Err` value of that error reaches the caller; and with
`n_values = 0` the empty sketch has length exactly L·K = 0 yet
`chunk_sketch` panics inside `slice::chunks(0)` instead of succeeding. -/
theorem chunk_error_panics_not_propagated :
    insert (lshNew Nat Nat 3 2) [1, 2, 3, 4, 5] 12 =
        .error (.panicked (.incorrectlyChunkedInput 6 5)) ∧
      (∀ e : LshError, insert (lshNew Nat Nat 3 2) [1, 2, 3, 4, 5] 12 ≠
        .error (.returned e)) ∧
      query (lshNew Nat Nat 3 2) [1, 2, 3, 4, 5] =
        .error (.panicked (.incorrectlyChunkedInput 6 5)) ∧
      (∀ e : LshError, query (lshNew Nat Nat 3 2) [1, 2, 3, 4, 5] ≠
        .error (.returned e)) ∧
      chunk_sketch (lshNew Nat Nat 1 0) ([] : List Nat) =
        .error .panickedChunkSizeZero := by
  have h1 : insert (lshNew Nat Nat 3 2) [1, 2, 3, 4, 5] 12 =
      .error (.panicked (.incorrectlyChunkedInput 6 5)) := by decide
  have h2 : query (lshNew Nat Nat 3 2) [1, 2, 3, 4, 5] =
      .error (.panicked (.incorrectlyChunkedInput 6 5)) := by decide
  refine ⟨h1, fun e => ?_, h2, fun e => ?_, by decide⟩
  · rw [h1]
    simp
  · rw [h2]
    simp

/-- C1 (code bug): `densify_optimal` does NOT bound its probe attempts on
an all-empty sketch.  Its `while` loop keeps probing
`hash(i + attempts) % num_bins`, and when every slot of the sketch is
`None` no probe can ever succeed: for every fuel bound the loop is still
running, so the call neither terminates nor reaches the (dead)
`Err(EmptySketchError)` arm.  In particular on the all-empty 4-bin sketch
no number of probes ever produces a result. -/
theorem densify_optimal_unbounded_on_empty :
    (∀ sk nb i a fuel, (∀ x ∈ sk, x = none) →
        probeLoop sk nb i a fuel = none) ∧
      (∀ fuel, densify_optimal 4 fuel [none, none, none, none] = none) ∧
      (∀ nb fuel sk, sk ≠ [] → (∀ x ∈ sk, x = none) →
        densify_optimal nb fuel sk = none) := by
  have key : ∀ nb fuel sk, sk ≠ [] → (∀ x ∈ sk, x = none) →
      densify_optimal nb fuel sk = none := by
    intro nb fuel sk hne hall
    match sk, hne with
    | v :: rest, _ =>
      have hv : v = none := hall v (List.mem_cons_self v rest)
      subst hv
      rw [densify_optimal, densifyOptimalAux,
        probeLoop_all_none (none :: rest) nb 0 hall 1 fuel]
  exact ⟨fun sk nb i a fuel h => probeLoop_all_none sk nb i h a fuel,
    fun fuel => key 4 fuel _ (by decide) (by decide), key⟩

/-- Witness for C1: the loop of `densify_optimal` on the concrete all-empty
two-bin sketch is still running after any concrete fuel, here 1000. -/
theorem densify_optimal_unbounded_on_empty_witness :
    densify_optimal 2 1000 [none, none] = none :=
  densify_optimal_unbounded_on_empty.2.2 2 1000 [none, none]
    (by decide) (by decide)

/-- C8: `OnePermutationHasher::jaccard` fails with
`SketchLengthMismatchError` if and only if the two dense sketches have
different lengths; otherwise it returns `shared / total` where `shared`
counts the positions holding equal values (the recurrence below is exactly
"count the positions where the two sketches agree") and `total` is the
common length; in particular `jaccard [1,2,0] [1,0,2] = 1/3`. -/
theorem oph_jaccard_length_check_and_value :
    (∀ s1 s2 : List Nat, oph_jaccard s1 s2 = none ↔ s1.length ≠ s2.length) ∧
      (∀ s1 s2 : List Nat, s2.length = s1.length →
        oph_jaccard s1 s2 =
          some ((countShared s1 s2 : ℚ) / (s1.length : ℚ))) ∧
      (∀ (a b : Nat) (t1 t2 : List Nat),
        countShared (a :: t1) (b :: t2) =
          (if a = b then 1 else 0) + countShared t1 t2) ∧
      (∀ s2 : List Nat, countShared [] s2 = 0) ∧
      oph_jaccard [1, 2, 0] [1, 0, 2] = some (1 / 3) := by
  refine ⟨fun s1 s2 => ?_, fun s1 s2 h => ?_, fun a b t1 t2 => ?_,
    fun s2 => rfl, ?_⟩
  · constructor
    · intro hn
      by_cases h : s2.length = s1.length
      · simp [oph_jaccard, h] at hn
      · omega
    · intro hne
      have h : s2.length ≠ s1.length := fun hh => hne hh.symm
      simp [oph_jaccard, h]
  · simp [oph_jaccard, h]
  · simp [countShared, List.countP_cons, Nat.add_comm]
  · have hc : countShared [1, 2, 0] [1, 0, 2] = 1 := by decide
    rw [oph_jaccard]
    norm_num [hc]

/-- Witness for C8: the equal-length branch applied at the repository's
own fixture sketches. -/
theorem oph_jaccard_length_check_and_value_witness :
    oph_jaccard [1, 2, 0] [1, 0, 2] =
      some ((countShared [1, 2, 0] [1, 0, 2] : ℚ) /
        (([1, 2, 0] : List Nat).length : ℚ)) :=
  oph_jaccard_length_check_and_value.2.1 [1, 2, 0] [1, 0, 2] (by decide)

end BigbedJaccard
